import Mathlib

/-!
Shallow embedding of the ips-patch repository (src/ips.rs): the IPS patch
parser and applier, with bytes modelled as Nat (every byte value is below 256,
so none of the u16/u32 arithmetic in the source can overflow) and byte buffers
as List Nat.

The source constructs many error values (IpsError::InvalidPatch, header and
truncation message strings) as bare expression statements and discards them:
those statements have no effect, so the corresponding checks are not enforced.
Where the source would panic on an out-of-range index or slice, the embedding
returns none (for Option-valued functions) or ParseOutcome.crash: a panic
aborts the process, so no buffer and no IpsError value is ever produced there.
-/

/-- Record (src/ips.rs lines 8-19): tagged union of the two IPS record kinds. -/
inductive Record where
  | normal (offset : Nat) (data : List Nat)
  | runtimeLengthEncoded (offset : Nat) (size : Nat) (value : Nat)
  deriving DecidableEq

/-- Patch (src/ips.rs lines 21-24): an ordered list of records. -/
structure Patch where
  records : List Record
  deriving DecidableEq

/-- The 3 ASCII bytes of the EOF terminator. -/
def eofBytes : List Nat := [69, 79, 70]

/-- The 5 ASCII bytes of the PATCH magic. -/
def headerBytes : List Nat := [80, 65, 84, 67, 72]

/-- Outcome of the record-reading loop in Patch::parse. outOfFuel is an
artifact of the fuel-based embedding of the source's unbounded loop; the
termination theorem shows it is never reached when fuel exceeds the buffer
length. crash models a Rust panic from an out-of-range index or slice. -/
inductive ParseOutcome where
  | outOfFuel
  | crash
  | ok (records : List Record)
  deriving DecidableEq

/-- The loop of Patch::parse (src/ips.rs lines 52-125), acting on the bytes
after the 5-byte header. Field-by-field correspondence with the source:
  - the break condition is patch.len() == 3 && patch[..3] == EOF (line 53);
  - when fewer than 3 bytes remain the source builds an InvalidPatch value for
    the offset field and discards it (lines 57-65), then panics indexing
    patch[2] (line 66): crash;
  - offset = (patch[0] << 16) + (patch[1] << 8) + patch[2] as u32, which cannot
    overflow for byte values (line 66);
  - when fewer than 2 bytes remain the size-field error is likewise discarded
    (lines 69-77) and patch[1] panics (line 78): crash;
  - size = (patch[0] << 8) + patch[1] as u16 (line 78);
  - size == 0: RLE record; the rle_size truncation error (lines 82-90) and the
    rle_value message (lines 94-96) are discarded, and patch[1] or patch[0]
    panics when the bytes are missing: crash;
  - size != 0: the data truncation error is discarded (lines 107-116) and the
    slice patch[..size] panics when size bytes are not available (line 117):
    crash. -/
def parseLoop : Nat → List Nat → ParseOutcome
  | 0, _ => .outOfFuel
  | fuel + 1, patch =>
    if patch.length = 3 ∧ patch.take 3 = eofBytes then
      .ok []
    else
      match patch with
      | b0 :: b1 :: b2 :: rest =>
        let offset := b0 * 65536 + b1 * 256 + b2
        match rest with
        | s0 :: s1 :: rest2 =>
          let size := s0 * 256 + s1
          if size = 0 then
            match rest2 with
            | r0 :: r1 :: rest3 =>
              let rleSize := r0 * 256 + r1
              match rest3 with
              | v :: rest4 =>
                match parseLoop fuel rest4 with
                | .ok recs => .ok (.runtimeLengthEncoded offset rleSize v :: recs)
                | other => other
              | [] => .crash
            | _ => .crash
          else
            if size ≤ rest2.length then
              match parseLoop fuel (rest2.drop size) with
              | .ok recs => .ok (.normal offset (rest2.take size) :: recs)
              | other => other
            else
              .crash
        | _ => .crash
      | _ => .crash

/-- Patch::parse (src/ips.rs lines 44-131). The header check on line 45 builds
a message string and discards it, so a wrong magic is not rejected; but when
the buffer is shorter than 5 bytes the slice patch[5..] on line 48 panics:
none. The fuel passed to the loop is one more than the remaining length, which
the termination theorem shows is always enough; a crash in the loop gives
none. -/
def Patch.parse (patch : List Nat) : Option Patch :=
  if patch.length < 5 then
    none
  else
    match parseLoop ((patch.drop 5).length + 1) (patch.drop 5) with
    | .ok records => some { records := records }
    | _ => none

/-- One indexing assignment obuf[i] = v: panics (none) when i is out of
range, else updates in place. -/
def writeAt (obuf : List Nat) (i : Nat) (v : Nat) : Option (List Nat) :=
  if i < obuf.length then some (obuf.set i v) else none

/-- The literal-record write loop of Patch::apply (src/ips.rs lines 180-182):
for i in 0..data.len() do obuf[offset + i] = data[i]. -/
def writeLoop (obuf : List Nat) (offset : Nat) (data : List Nat) : Option (List Nat) :=
  match data with
  | [] => some obuf
  | v :: rest =>
    match writeAt obuf offset v with
    | some obuf2 => writeLoop obuf2 (offset + 1) rest
    | none => none

/-- The RLE write loop of Patch::apply (src/ips.rs lines 205-207):
for i in offset..(offset + size) do obuf[i] = value. -/
def fillLoop (obuf : List Nat) (offset : Nat) (size : Nat) (value : Nat) : Option (List Nat) :=
  match size with
  | 0 => some obuf
  | n + 1 =>
    match writeAt obuf offset value with
    | some obuf2 => fillLoop obuf2 (offset + 1) n value
    | none => none

/-- The body of the record loop in Patch::apply (src/ips.rs lines 160-209).
In both arms, when obuf.len() == offset the record is an append. Otherwise the
source compares ibuf.len() against offset + size (lines 170 and 196) but the
InvalidPatch value it builds there is an expression statement that is
discarded (lines 171-178 and 197-203), so no bounds check against ibuf is
enforced and control always reaches the write loop; ibuf plays no effective
role in this arm. -/
def applyRecord (ibuf obuf : List Nat) : Record → Option (List Nat)
  | .normal offset data =>
    if obuf.length = offset then
      some (obuf ++ data)
    else
      writeLoop obuf offset data
  | .runtimeLengthEncoded offset size value =>
    if obuf.length = offset then
      some (obuf ++ List.replicate size value)
    else
      fillLoop obuf offset size value

/-- The record loop of Patch::apply (src/ips.rs line 159): records are
processed strictly in list order. -/
def applyRecords (ibuf obuf : List Nat) : List Record → Option (List Nat)
  | [] => some obuf
  | r :: rest =>
    match applyRecord ibuf obuf r with
    | some obuf2 => applyRecords ibuf obuf2 rest
    | none => none

/-- Patch::apply (src/ips.rs lines 157-212): clone the input into obuf and
replay the records in order. -/
def Patch.apply (p : Patch) (ibuf : List Nat) : Option (List Nat) :=
  applyRecords ibuf ibuf p.records

/-- The offset field common to both record variants. -/
def Record.offset : Record → Nat
  | .normal o _ => o
  | .runtimeLengthEncoded o _ _ => o

/-- The number of bytes a record writes. -/
def Record.size : Record → Nat
  | .normal _ data => data.length
  | .runtimeLengthEncoded _ size _ => size

/-- The byte sequence a record writes. -/
def Record.writeData : Record → List Nat
  | .normal _ data => data
  | .runtimeLengthEncoded _ size value => List.replicate size value

/-- Stable insertion of a record into a list sorted by offset. -/
def insertByOffset (r : Record) : List Record → List Record
  | [] => [r]
  | s :: rest =>
    if r.offset ≤ s.offset then r :: s :: rest else s :: insertByOffset r rest

/-- Stable sort of records by their offset field: the canonicalising sort the
specification argues would be incorrect. -/
def sortByOffset : List Record → List Record
  | [] => []
  | r :: rs => insertByOffset r (sortByOffset rs)

/-- The byte encoding of one record in the IPS container grammar:
3-byte big-endian offset, 2-byte big-endian size, then either the data bytes
(literal) or a 2-byte run length and the fill value (size = 0). -/
def encodeRecord : Record → List Nat
  | .normal offset data =>
    [offset / 65536, offset / 256 % 256, offset % 256,
     data.length / 256, data.length % 256] ++ data
  | .runtimeLengthEncoded offset size value =>
    [offset / 65536, offset / 256 % 256, offset % 256, 0, 0,
     size / 256, size % 256, value]

/-- Concatenated encoding of a record sequence. -/
def encodeRecords : List Record → List Nat
  | [] => []
  | r :: rs => encodeRecord r ++ encodeRecords rs

/-- Structural well-formedness of a record: fields fit their declared widths,
a literal payload is non-empty (a zero size signals the RLE variant) and short
enough for the 2-byte size field, and byte values are bytes. -/
def recordWF : Record → Prop
  | .normal offset data =>
    offset < 16777216 ∧ data ≠ [] ∧ data.length < 65536 ∧ ∀ b ∈ data, b < 256
  | .runtimeLengthEncoded offset size value =>
    offset < 16777216 ∧ size < 65536 ∧ value < 256

instance (r : Record) : Decidable (recordWF r) := by
  cases r <;> simp only [recordWF] <;> infer_instance

theorem writeAt_some {obuf : List Nat} {i v : Nat} {out : List Nat}
    (h : writeAt obuf i v = some out) : i < obuf.length ∧ out = obuf.set i v := by
  unfold writeAt at h
  split at h
  · exact ⟨by assumption, (Option.some.inj h).symm⟩
  · exact absurd h (by simp)

theorem writeLoop_length : ∀ (data obuf : List Nat) (offset : Nat) (out : List Nat),
    writeLoop obuf offset data = some out → out.length = obuf.length := by
  intro data
  induction data with
  | nil =>
    intro obuf o out h
    simp only [writeLoop] at h
    simp [← Option.some.inj h]
  | cons v rest ih =>
    intro obuf o out h
    simp only [writeLoop] at h
    cases hw : writeAt obuf o v with
    | none => rw [hw] at h; exact absurd h (by simp)
    | some obuf2 =>
      rw [hw] at h
      obtain ⟨-, hset⟩ := writeAt_some hw
      rw [ih obuf2 (o + 1) out h, hset, List.length_set]

theorem writeLoop_bound : ∀ (data obuf : List Nat) (offset : Nat) (out : List Nat),
    writeLoop obuf offset data = some out → data ≠ [] →
    offset + data.length ≤ obuf.length := by
  intro data
  induction data with
  | nil => intro _ _ _ _ hne; exact absurd rfl hne
  | cons v rest ih =>
    intro obuf o out h _
    simp only [writeLoop] at h
    cases hw : writeAt obuf o v with
    | none => rw [hw] at h; exact absurd h (by simp)
    | some obuf2 =>
      rw [hw] at h
      obtain ⟨hlt, hset⟩ := writeAt_some hw
      rcases rest with - | ⟨w, rest2⟩
      · simp only [List.length_cons, List.length_nil]
        omega
      · have := ih obuf2 (o + 1) out h (by simp)
        rw [hset, List.length_set] at this
        simp only [List.length_cons] at this ⊢
        omega

theorem writeLoop_of_le : ∀ (data obuf : List Nat) (offset : Nat),
    offset + data.length ≤ obuf.length →
    writeLoop obuf offset data
      = some (obuf.take offset ++ data ++ obuf.drop (offset + data.length)) := by
  intro data
  induction data with
  | nil =>
    intro obuf o h
    simp [writeLoop, List.take_append_drop]
  | cons v rest ih =>
    intro obuf o h
    have ho : o < obuf.length := by simp only [List.length_cons] at h; omega
    simp only [writeLoop, writeAt, if_pos ho]
    rw [ih (obuf.set o v) (o + 1) (by rw [List.length_set]; simp only [List.length_cons] at h; omega)]
    congr 1
    rw [List.set_take, List.drop_set, if_pos (by omega)]
    rw [List.set_eq_take_cons_drop v (by rw [List.length_take]; omega)]
    rw [List.take_take, List.drop_eq_nil_of_le (by rw [List.length_take]; omega)]
    have hmin : min o (o + 1) = o := by omega
    have hidx : o + 1 + rest.length = o + (rest.length + 1) := by omega
    simp [hmin, hidx]

theorem writeLoop_some_eq {obuf : List Nat} {offset : Nat} {data out : List Nat}
    (h : writeLoop obuf offset data = some out) :
    out = obuf.take offset ++ data ++ obuf.drop (offset + data.length) := by
  rcases data with - | ⟨v, rest⟩
  · simp only [writeLoop] at h
    simp [← Option.some.inj h, List.take_append_drop]
  · have hb := writeLoop_bound (v :: rest) obuf offset out h (by simp)
    rw [writeLoop_of_le (v :: rest) obuf offset hb] at h
    exact (Option.some.inj h).symm

theorem writeLoop_drop_take {obuf : List Nat} {offset : Nat} {data out : List Nat}
    (h : writeLoop obuf offset data = some out) :
    (out.drop offset).take data.length = data := by
  rcases data with - | ⟨v, rest⟩
  · simp
  · have hb := writeLoop_bound (v :: rest) obuf offset out h (by simp)
    have he := writeLoop_some_eq h
    have hto : (obuf.take offset).length = offset := by
      rw [List.length_take]; omega
    rw [he, List.append_assoc, List.drop_left' hto, List.take_left]

theorem fillLoop_eq_writeLoop : ∀ (size : Nat) (obuf : List Nat) (offset value : Nat),
    fillLoop obuf offset size value = writeLoop obuf offset (List.replicate size value) := by
  intro size
  induction size with
  | zero => intro obuf o v; simp [fillLoop, writeLoop, List.replicate]
  | succ n ih =>
    intro obuf o v
    simp only [fillLoop, List.replicate_succ, writeLoop]
    cases writeAt obuf o v with
    | none => rfl
    | some obuf2 => exact ih obuf2 (o + 1) v

theorem applyRecord_length {ibuf obuf : List Nat} {r : Record} {out : List Nat}
    (h : applyRecord ibuf obuf r = some out) : obuf.length ≤ out.length := by
  cases r with
  | normal o d =>
    simp only [applyRecord] at h
    split at h
    · rw [← Option.some.inj h, List.length_append]; omega
    · rw [writeLoop_length d obuf o out h]
  | runtimeLengthEncoded o sz v =>
    simp only [applyRecord] at h
    split at h
    · rw [← Option.some.inj h, List.length_append]; omega
    · rw [fillLoop_eq_writeLoop] at h
      rw [writeLoop_length _ obuf o out h]

theorem applyRecords_length : ∀ (rs : List Record) (ibuf obuf out : List Nat),
    applyRecords ibuf obuf rs = some out → obuf.length ≤ out.length := by
  intro rs
  induction rs with
  | nil =>
    intro ibuf obuf out h
    simp only [applyRecords] at h
    simp [← Option.some.inj h]
  | cons r rest ih =>
    intro ibuf obuf out h
    simp only [applyRecords] at h
    cases ha : applyRecord ibuf obuf r with
    | none => rw [ha] at h; exact absurd h (by simp)
    | some obuf2 =>
      rw [ha] at h
      exact le_trans (applyRecord_length ha) (ih ibuf obuf2 out h)

theorem applyRecord_writeData {ibuf obuf : List Nat} {r : Record} {out : List Nat}
    (h : applyRecord ibuf obuf r = some out) :
    (out.drop r.offset).take r.size = r.writeData := by
  cases r with
  | normal o d =>
    simp only [applyRecord] at h
    simp only [Record.offset, Record.size, Record.writeData]
    split at h
    · rw [← Option.some.inj h]
      next heq =>
      rw [List.drop_left' heq, List.take_length]
    · exact writeLoop_drop_take h
  | runtimeLengthEncoded o sz v =>
    simp only [applyRecord] at h
    simp only [Record.offset, Record.size, Record.writeData]
    split at h
    · rw [← Option.some.inj h]
      next heq =>
      rw [List.drop_left' heq]
      simp [List.take_replicate]
    · rw [fillLoop_eq_writeLoop] at h
      have := writeLoop_drop_take h
      rwa [List.length_replicate] at this

theorem encodeRecord_length_pos (r : Record) : 1 ≤ (encodeRecord r).length := by
  cases r <;> simp [encodeRecord]

theorem encodeRecords_length_ge : ∀ rs : List Record, rs.length ≤ (encodeRecords rs).length := by
  intro rs
  induction rs with
  | nil => simp [encodeRecords]
  | cons r rest ih =>
    have := encodeRecord_length_pos r
    simp only [encodeRecords, List.length_append, List.length_cons]
    omega

theorem parseLoop_encode : ∀ (rs : List Record) (fuel : Nat),
    (∀ r ∈ rs, recordWF r) → rs.length < fuel →
    parseLoop fuel (encodeRecords rs ++ eofBytes) = .ok rs := by
  intro rs
  induction rs with
  | nil =>
    intro fuel _ hfuel
    rcases fuel with - | f
    · omega
    · simp [parseLoop, encodeRecords, eofBytes]
  | cons r rest ih =>
    intro fuel hwf hfuel
    rcases fuel with - | f
    · omega
    have hwfr : recordWF r := hwf r (List.mem_cons_self r rest)
    have hwfs : ∀ x ∈ rest, recordWF x := fun x hx => hwf x (List.mem_cons_of_mem r hx)
    have hfuel2 : rest.length < f := by
      simp only [List.length_cons] at hfuel; omega
    cases r with
    | normal o d =>
      obtain ⟨ho, hdne, hdl, -⟩ := hwfr
      have hlen0 : d.length ≠ 0 := fun hh => hdne (List.eq_nil_of_length_eq_zero hh)
      have hoff : o / 65536 * 65536 + o / 256 % 256 * 256 + o % 256 = o := by omega
      have hs : d.length / 256 * 256 + d.length % 256 = d.length := by omega
      simp only [encodeRecords, encodeRecord, List.append_assoc, List.cons_append,
        List.nil_append, parseLoop]
      split
      · next hc =>
        exfalso
        obtain ⟨hc1, -⟩ := hc
        simp only [List.length_cons, List.length_append, eofBytes, List.length_nil] at hc1
        omega
      · simp only [hs]
        rw [if_neg hlen0, if_pos (by simp only [List.length_append]; omega)]
        rw [List.take_left, List.drop_left]
        rw [ih f hwfs hfuel2]
        simp [hoff]
    | runtimeLengthEncoded o sz v =>
      obtain ⟨ho, hsz, hv⟩ := hwfr
      have hoff : o / 65536 * 65536 + o / 256 % 256 * 256 + o % 256 = o := by omega
      have hs : sz / 256 * 256 + sz % 256 = sz := by omega
      simp only [encodeRecords, encodeRecord, List.append_assoc, List.cons_append,
        List.nil_append, parseLoop]
      split
      · next hc =>
        exfalso
        obtain ⟨hc1, -⟩ := hc
        simp only [List.length_cons, List.length_append, eofBytes, List.length_nil] at hc1
        omega
      · rw [ih f hwfs hfuel2]
        simp [hoff, hs]

/-- C1: the spec demands that a Literal or RunLength record whose offset plus
size exceeds the original input length, with offset different from the current
output length, yield an OutOfBounds error and no output. The code builds that
error value and discards it (src/ips.rs lines 170-179 and 196-204), so no such
error is ever returned: the first conjunct shows a patch whose second record
writes past the original input (offset 4 + size 1 > input length 3, offset 4
different from output length 5) yet apply succeeds with an output buffer; the
second shows a genuinely out-of-range write makes apply crash (none), again
returning no OutOfBounds error. -/
theorem apply_discards_bounds_check :
    Patch.apply { records := [Record.normal 3 [7, 8], Record.normal 4 [9]] } [0, 0, 0]
      = some [0, 0, 0, 7, 9] ∧
    Patch.apply { records := [Record.normal 0 [1, 2]] } [0] = none := by decide

/-- C2: the spec demands a TruncatedRecord error naming the field being parsed
when a well-formed patch is truncated at a field boundary before EOF. The code
builds the corresponding InvalidPatch values and discards them (src/ips.rs
lines 57-65, 69-77, 82-90, 94-96, 107-116), then panics on an out-of-range
index, so parse returns no error value at all: truncations of the well-formed
patches PATCH/offset/size=3/ABC/EOF and PATCH/offset/size=0/rle/EOF at the
boundaries before the offset, size, data, rle_length and rle_value fields all
crash (none). -/
theorem parse_truncation_crashes :
    Patch.parse [80, 65, 84, 67, 72] = none ∧
    Patch.parse [80, 65, 84, 67, 72, 0, 0, 5] = none ∧
    Patch.parse [80, 65, 84, 67, 72, 0, 0, 5, 0, 3] = none ∧
    Patch.parse [80, 65, 84, 67, 72, 0, 0, 5, 0, 0] = none ∧
    Patch.parse [80, 65, 84, 67, 72, 0, 0, 5, 0, 0, 0, 4] = none := by decide

/-- C3: the spec demands a MalformedHeader error when the buffer is shorter
than 5 bytes or its first 5 bytes are not PATCH. The code builds the header
message and discards it (src/ips.rs lines 45-47): for buffers shorter than 5
bytes the slice patch[5..] panics (none, no error value), and a 5-byte-or-
longer buffer with a wrong magic such as XXXXX followed by EOF is accepted
without any error. -/
theorem parse_header_not_enforced :
    Patch.parse [] = none ∧
    Patch.parse [80, 65, 84, 67] = none ∧
    Patch.parse [88, 88, 88, 88, 88, 69, 79, 70] = some { records := [] } := by decide

/-- C4 counterexample: the claim says parse stops successfully at the EOF
terminator and ignores any trailing bytes. The loop recognises the terminator
only when exactly 3 bytes remain (src/ips.rs line 53), so with a single
trailing byte after EOF the terminator bytes are consumed as an offset field
and parsing crashes instead of returning the empty record sequence. -/
theorem parse_trailing_byte_not_ignored :
    Patch.parse [80, 65, 84, 67, 72, 69, 79, 70, 0] = none := by decide

/-- C4 amended: for a patch buffer consisting of a valid header, a sequence of
well-formed records and the 3-byte EOF terminator as its final bytes (no
trailing bytes), parse stops successfully at the terminator and returns
exactly that record sequence. -/
theorem parse_roundtrip_no_trailing : ∀ rs : List Record, (∀ r ∈ rs, recordWF r) →
    Patch.parse (headerBytes ++ encodeRecords rs ++ eofBytes) = some { records := rs } := by
  intro rs hwf
  have hlen := encodeRecords_length_ge rs
  unfold Patch.parse
  rw [if_neg (by simp [headerBytes, List.length_append])]
  rw [List.append_assoc]
  have hdrop : (headerBytes ++ (encodeRecords rs ++ eofBytes)).drop 5
      = encodeRecords rs ++ eofBytes := by
    simp [headerBytes]
  rw [hdrop]
  rw [parseLoop_encode rs _ hwf (by simp [List.length_append, eofBytes]; omega)]

theorem parse_roundtrip_no_trailing_witness :
    (∀ r ∈ [Record.normal 0 [1]], recordWF r) ∧
    Patch.parse (headerBytes ++ encodeRecords [Record.normal 0 [1]] ++ eofBytes)
      = some { records := [Record.normal 0 [1]] } :=
  ⟨by decide, parse_roundtrip_no_trailing [Record.normal 0 [1]] (by decide)⟩

/-- C5: records are applied strictly in file order, so the later of two
records at the same offset wins on the overlap: for any two Literal records at
offset o applied in order d1 then d2, a successful output carries d2 on the
overlap of the two ranges. Moreover sorting the records by offset before
applying changes the final output on a concrete patch (two records at offsets
1 and 0 in decreasing-offset file order), so sort-by-offset is an incorrect
strategy. -/
theorem apply_order_sensitivity :
    (∀ (o : Nat) (d1 d2 ibuf out : List Nat),
        Patch.apply { records := [Record.normal o d1, Record.normal o d2] } ibuf = some out →
        (out.drop o).take (min d1.length d2.length) = d2.take (min d1.length d2.length)) ∧
    Patch.apply { records := sortByOffset [Record.normal 1 [5], Record.normal 0 [6, 7]] } [0, 0]
      ≠ Patch.apply { records := [Record.normal 1 [5], Record.normal 0 [6, 7]] } [0, 0] := by
  constructor
  · intro o d1 d2 ibuf out h
    simp only [Patch.apply, applyRecords] at h
    cases h1 : applyRecord ibuf ibuf (Record.normal o d1) with
    | none => simp [h1] at h
    | some o1 =>
      simp only [h1] at h
      cases h2 : applyRecord ibuf o1 (Record.normal o d2) with
      | none => simp [h2] at h
      | some o2 =>
        simp only [h2] at h
        have heq : o2 = out := by simpa using h
        rw [← heq]
        have hw := applyRecord_writeData h2
        simp only [Record.offset, Record.size, Record.writeData] at hw
        have hm : min d1.length d2.length ≤ d2.length := Nat.min_le_right _ _
        calc (o2.drop o).take (min d1.length d2.length)
            = ((o2.drop o).take d2.length).take (min d1.length d2.length) := by
              rw [List.take_take, Nat.min_eq_left hm]
          _ = d2.take (min d1.length d2.length) := by rw [hw]
  · decide

theorem apply_order_sensitivity_witness :
    Patch.apply { records := [Record.normal 0 [1], Record.normal 0 [2, 3]] } [9, 9, 9]
      = some [2, 3, 9] ∧
    (([2, 3, 9] : List Nat).drop 0).take (min 1 2) = ([2, 3] : List Nat).take (min 1 2) :=
  ⟨by decide, apply_order_sensitivity.1 0 [1] [2, 3] [9, 9, 9] [2, 3, 9] (by decide)⟩

/-- C6: parsing the 16-byte patch PATCH, offset 5, size 3, data ABC, EOF
yields exactly one Literal record, and applying it to the 5-byte all-zero
input takes the append special case (offset 5 equals the current output
length 5) and yields the 8-byte output ending in 0x41 0x42 0x43. -/
theorem concrete_append_scenario :
    Patch.parse [80, 65, 84, 67, 72, 0, 0, 5, 0, 3, 65, 66, 67, 69, 79, 70]
      = some { records := [Record.normal 5 [65, 66, 67]] } ∧
    Patch.apply { records := [Record.normal 5 [65, 66, 67]] } [0, 0, 0, 0, 0]
      = some [0, 0, 0, 0, 0, 65, 66, 67] ∧
    ([0, 0, 0, 0, 0] : List Nat).length = 5 := by decide

/-- C7: applying a patch with zero records returns the input buffer itself:
the output buffer starts as a copy of the input and the record loop does
nothing. -/
theorem apply_empty_patch_identity (ibuf : List Nat) :
    Patch.apply { records := [] } ibuf = some ibuf := rfl

/-- C8: whenever apply succeeds, the output buffer is at least as long as the
input buffer: the output starts as a copy of the input, appends grow it and
in-place writes preserve its length. -/
theorem apply_output_never_shorter (p : Patch) (ibuf out : List Nat)
    (h : Patch.apply p ibuf = some out) : ibuf.length ≤ out.length :=
  applyRecords_length p.records ibuf ibuf out h

theorem apply_output_never_shorter_witness :
    Patch.apply { records := [Record.normal 3 [7, 8]] } [0, 0, 0] = some [0, 0, 0, 7, 8] ∧
    ([0, 0, 0] : List Nat).length ≤ ([0, 0, 0, 7, 8] : List Nat).length :=
  ⟨by decide,
    apply_output_never_shorter { records := [Record.normal 3 [7, 8]] } [0, 0, 0]
      [0, 0, 0, 7, 8] (by decide)⟩

/-- C9: a non-append record (offset strictly below the current output length)
whose whole target range lies inside the current, possibly already-grown,
output buffer is written successfully, with no constraint involving the
original input buffer: the source's comparison against ibuf is discarded, so
writes into previously appended territory beyond the original input's length
succeed as well. -/
theorem applyRecord_in_bounds_write (ibuf obuf : List Nat) (r : Record)
    (h1 : r.offset < obuf.length) (h2 : r.offset + r.size ≤ obuf.length) :
    applyRecord ibuf obuf r
      = some (obuf.take r.offset ++ r.writeData ++ obuf.drop (r.offset + r.size)) := by
  cases r with
  | normal o d =>
    simp only [Record.offset, Record.size, Record.writeData] at h1 h2 ⊢
    simp only [applyRecord]
    rw [if_neg (by omega)]
    exact writeLoop_of_le d obuf o h2
  | runtimeLengthEncoded o sz v =>
    simp only [Record.offset, Record.size, Record.writeData] at h1 h2 ⊢
    simp only [applyRecord]
    rw [if_neg (by omega)]
    rw [fillLoop_eq_writeLoop]
    have := writeLoop_of_le (List.replicate sz v) obuf o
      (by rw [List.length_replicate]; omega)
    rwa [List.length_replicate] at this

theorem applyRecord_in_bounds_write_witness :
    (Record.normal 4 [9]).offset < ([0, 0, 0, 7, 8] : List Nat).length ∧
    (Record.normal 4 [9]).offset + (Record.normal 4 [9]).size
      ≤ ([0, 0, 0, 7, 8] : List Nat).length ∧
    applyRecord [0] [0, 0, 0, 7, 8] (Record.normal 4 [9]) = some [0, 0, 0, 7, 9] :=
  ⟨by decide, by decide,
    (applyRecord_in_bounds_write [0] [0, 0, 0, 7, 8] (Record.normal 4 [9])
      (by decide) (by decide)).trans (by decide)⟩

/-- C10: the record-reading loop of parse terminates on every input: fuel one
more than the length of the remaining buffer is never exhausted, because every
iteration either breaks at the terminator, crashes on an out-of-range index,
or consumes at least 5 bytes before recursing on a strictly shorter buffer. -/
theorem parseLoop_terminates : ∀ (fuel : Nat) (l : List Nat),
    l.length < fuel → parseLoop fuel l ≠ ParseOutcome.outOfFuel := by
  intro fuel
  induction fuel with
  | zero => intro l h; omega
  | succ f ih =>
    intro l h
    by_cases h3 : l.length = 3 ∧ l.take 3 = eofBytes
    · simp [parseLoop, h3]
    · rcases l with - | ⟨b0, l⟩
      · simp [parseLoop, h3]
      rcases l with - | ⟨b1, l⟩
      · simp [parseLoop, h3]
      rcases l with - | ⟨b2, l⟩
      · simp [parseLoop, h3]
      rcases l with - | ⟨s0, l⟩
      · simp only [parseLoop]
        rw [if_neg h3]
        simp
      rcases l with - | ⟨s1, rest2⟩
      · simp [parseLoop, h3]
      simp only [parseLoop, if_neg h3]
      split
      · rcases rest2 with - | ⟨r0, rest2⟩
        · simp
        rcases rest2 with - | ⟨r1, rest3⟩
        · simp
        rcases rest3 with - | ⟨v, rest4⟩
        · simp
        have hr : rest4.length < f := by
          simp only [List.length_cons] at h; omega
        cases hp : parseLoop f rest4 with
        | outOfFuel => exact absurd hp (ih rest4 hr)
        | crash => simp [hp]
        | ok recs => simp [hp]
      · split
        · have hr : (rest2.drop (s0 * 256 + s1)).length < f := by
            rw [List.length_drop]
            simp only [List.length_cons] at h
            omega
          cases hp : parseLoop f (rest2.drop (s0 * 256 + s1)) with
          | outOfFuel => exact absurd hp (ih _ hr)
          | crash => simp [hp]
          | ok recs => simp [hp]
        · simp

theorem parseLoop_terminates_witness :
    ([] : List Nat).length < 1 ∧ parseLoop 1 [] ≠ ParseOutcome.outOfFuel :=
  ⟨by decide, parseLoop_terminates 1 [] (by decide)⟩
